import Mathlib

/-!
Verification of the OpenColorIO Lut1D GPU shader-program generator
(`src/OpenColorIO/ops/Lut1D/Lut1DOpGPU.cpp`) and the color-space set
container (`src/OpenColorIO/ColorSpaceSet.cpp`).

The C++ code is embedded shallowly:

* `unsigned long` arithmetic is `Nat`, with the wrap-around of subtraction
  made explicit through `usub` (the only operations whose C++ result can
  differ from the `Nat` result in any execution reachable here are
  subtractions; every other index computation stays below `2 ^ 64` for any
  realizable `std::vector`).
* `float` values and the GPU shader's floating-point expressions are
  embedded as exact rational arithmetic over `ℚ`; `floor(log2 x)` is
  `Int.log 2 x` and `pow(2, e)` is `(2 : ℚ) ^ e`.
* out-of-range `std::vector` reads (undefined behaviour in C++) make the
  embedded function return `none`.
-/

namespace OCIO

/-- Subtraction of 64-bit unsigned integers: `a - b` computed modulo
`2 ^ 64`, for operands below `2 ^ 64`. -/
def usub (a b : Nat) : Nat := if b ≤ a then a - b else a + 2 ^ 64 - b

/-- Modelled from the spec: `SanitizeFloat` lives in `MathUtils.h`, which is
not part of the excerpt.  Per the spec it replaces non-finite floats by a
defined finite fallback and leaves finite values unchanged (sections 7 and 8,
idempotence on finite values).  `ℚ` has no non-finite values, so on this
embedding it is the identity. -/
def SanitizeFloat (x : ℚ) : ℚ := x

/-- Reads the half-open index range `[lo, hi)` out of `l`, failing when the
range reaches past the end of the vector (models the iterator range handed
to `std::transform`). -/
def readRange (l : List ℚ) (lo hi : Nat) : Option (List ℚ) :=
  if hi ≤ l.length then some ((l.drop lo).take (hi - lo)) else none

/-- The RGB triple stored at texel position `j` of a flat interleaved
buffer. -/
def tripleAt (l : List ℚ) (j : Nat) : List ℚ := (l.drop (3 * j)).take 3

/-- The stepped copy loop of `PadLutChannels` (Lut1DOpGPU.cpp lines 36-47):
`for (i = 0; i < currWidth - step; i += step)` copies the input triples
`[i, i+step)`, duplicates the triple at `i + step`, and decrements
`leftover` by `step`.  The loop-counter recursion is driven by `fuel`;
calling it with `fuel = bound` makes the `fuel = 0` branch unreachable
(each iteration advances `i` by `step ≥ 1`), and when `step = 0` the C++
loop never advances `i` at all, which is rendered as `none`. -/
def padStepLoop (channel : List ℚ) (step bound : Nat) :
    Nat → Nat → List ℚ → Nat → Option (List ℚ × Nat)
  | 0, i, acc, leftover =>
    if i < bound then none else some (acc, leftover)
  | fuel + 1, i, acc, leftover =>
    if i < bound then
      if step = 0 then none
      else
        match readRange channel (3 * i) (3 * (i + step)),
            channel[3 * (i + step)]?,
            channel[3 * (i + step) + 1]?,
            channel[3 * (i + step) + 2]? with
        | some seg, some x, some y, some z =>
          padStepLoop channel step bound fuel (i + step)
            (acc ++ seg.map SanitizeFloat ++
              [SanitizeFloat x, SanitizeFloat y, SanitizeFloat z])
            (usub leftover step)
        | _, _, _, _ => none
    else some (acc, leftover)

/-- The `height > 1` row-wrapping phase and the `height == 1` copy phase of
`PadLutChannels` (Lut1DOpGPU.cpp lines 25-68): everything before the tail
padding. -/
def padBody (width height : Nat) (channel : List ℚ) : Option (List ℚ) :=
  let currWidth := channel.length / 3
  if 1 < height then
    let step := usub width 1
    let bound := usub currWidth step
    match padStepLoop channel step bound bound 0 [] currWidth with
    | none => none
    | some (acc, leftover) =>
      if 0 < leftover then
        match readRange channel (3 * usub currWidth leftover)
              (3 * usub currWidth 1),
            channel[3 * usub currWidth 1]?,
            channel[3 * usub currWidth 1 + 1]?,
            channel[3 * usub currWidth 1 + 2]? with
        | some seg, some x, some y, some z =>
          some (acc ++ seg.map SanitizeFloat ++
            [SanitizeFloat x, SanitizeFloat y, SanitizeFloat z])
        | _, _, _, _ => none
      else some acc
  else some (channel.map SanitizeFloat)

/-- The tail padding of `PadLutChannels` (Lut1DOpGPU.cpp lines 70-79):
repeats the last input triple until `width * height` texels are stored;
`missingEntries` is an unsigned subtraction. -/
def padTail (width height : Nat) (channel : List ℚ) (b : List ℚ) :
    Option (List ℚ) :=
  let currWidth := channel.length / 3
  let missing := usub (width * height) (b.length / 3)
  if missing = 0 then some b
  else
    match channel[3 * usub currWidth 1]?,
        channel[3 * usub currWidth 1 + 1]?,
        channel[3 * usub currWidth 1 + 2]? with
    | some x, some y, some z =>
      some (b ++ (List.replicate missing
        [SanitizeFloat x, SanitizeFloat y, SanitizeFloat z]).flatten)
    | _, _, _ => none

/-- `PadLutChannels` (Lut1DOpGPU.cpp lines 18-80).  For `height > 1` the
input triples are wrapped across rows with a one-texel overlap; the
remaining texels are filled with the last input triple. -/
def PadLutChannels (width height : Nat) (channel : List ℚ) : Option (List ℚ) :=
  match padBody width height channel with
  | none => none
  | some b => padTail width height channel b

/-- GLSL `step(edge, x)`: `0.0` when `x < edge`, `1.0` otherwise. -/
def stepFn (edge x : ℚ) : ℚ := if x < edge then 0 else 1

/-- Modelled from the spec: `HALF_NRM_MIN` comes from `MathUtils.h`, not in
the excerpt; it is the smallest normalized half-precision magnitude
`2 ^ (-14)` (the spec's "half-min-normal threshold"). -/
def HALF_NRM_MIN : ℚ := 1 / 2 ^ 14

/-- Modelled from the spec: `HALF_MAX` comes from `MathUtils.h`, not in the
excerpt; it is the largest finite half-precision value `65504`. -/
def HALF_MAX : ℚ := 65504

/-- The literal `6.09755515e-05f` of Lut1DOpGPU.cpp line 139, which is the
`float` closest to `2 ^ (-14) - 2 ^ (-24) = 1023 / 2 ^ 24` (and that value
is itself exactly representable as a `float`). -/
def HALF_DENRM_MAX : ℚ := 1023 / 2 ^ 24

def NEG_MIN_EXP : ℚ := 15

def EXP_SCALE : ℚ := 1024

/-- The value held by `dep` right before the sign adjustment in the
half-domain helper synthesized at Lut1DOpGPU.cpp lines 141-166: the raw
half bit pattern of `|f|`, reconstructed with floating-point operations
(embedded here as exact arithmetic; `floor(log2 v)` is `Int.log 2 v`,
`pow(2, e)` is `(2 : ℚ) ^ e`, and the `dot(fComp, scale)` recombination
with `fComp = (exponent, mantissa, NEG_MIN_EXP)` is written out). -/
def depMag (f : ℚ) : ℚ :=
  let abs_f := |f|
  if HALF_NRM_MIN < abs_f then
    let absarr := min abs_f HALF_MAX
    let e : ℤ := Int.log 2 absarr
    let lower : ℚ := (2 : ℚ) ^ e
    let mant := (absarr - lower) / lower
    ((e : ℚ) + mant + NEG_MIN_EXP) * EXP_SCALE
  else
    abs_f * 1023 / HALF_DENRM_MAX

/-- The full `dep` of the half-domain helper, after the sign adjustment
`dep += step(f, 0.0) * 32768.0` (Lut1DOpGPU.cpp line 169). -/
def computeDep (f : ℚ) : ℚ := depMag f + stepFn f 0 * 32768

/-- The half-domain row formula `floor(dep / (width-1))` of Lut1DOpGPU.cpp
line 175, as a function of `dep`. -/
def halfRowOfDep (width : Nat) (dep : ℚ) : ℚ := ⌊dep / ((width : ℚ) - 1)⌋

/-- The row coordinate `retVal.y = floor(dep / (width-1))` computed by the
half-domain helper (Lut1DOpGPU.cpp line 175), as the float value it holds. -/
def halfRow (width : Nat) (f : ℚ) : ℚ := halfRowOfDep width (computeDep f)

/-- The column coordinate `retVal.x = dep - retVal.y * (width-1)` of the
half-domain helper (Lut1DOpGPU.cpp line 176). -/
def halfCol (width : Nat) (f : ℚ) : ℚ :=
  computeDep f - halfRow width f * ((width : ℚ) - 1)

/-- The value of the IEEE-754 half-precision number whose bit pattern is
`k` (sign bit `k / 32768`, exponent field `(k / 1024) % 32`, mantissa field
`k % 1024`), for patterns encoding finite values.  Patterns with exponent
field `31` encode infinities and NaNs, which have no rational value; the
formula's output at those patterns is not used. -/
def halfToRat (k : Nat) : ℚ :=
  (if (k / 32768) % 2 = 1 then -1 else 1) *
    (if (k / 1024) % 32 = 0 then ((k % 1024 : ℕ) : ℚ) / 2 ^ 24
     else (2 : ℚ) ^ ((k / 1024) % 32) / 2 ^ 15 * (1 + ((k % 1024 : ℕ) : ℚ) / 1024))

/-- C-style cast of a float to `int`: truncation toward zero (`Int.tdiv`
rounds toward zero). -/
def intTrunc (q : ℚ) : ℤ := q.num.tdiv (q.den : ℤ)

/-- The row coordinate `retVal.y = float(int(dep / (width-1)))` computed by
the float-domain multi-row helper (Lut1DOpGPU.cpp line 189). -/
def floatRow (width : Nat) (dep : ℚ) : ℚ :=
  (intTrunc (dep / ((width : ℚ) - 1)) : ℚ)

/-- The observable artifacts of one `GetLut1DGPUShaderProgram` call: the
texture geometry, the packed texel buffer handed to `addTexture`, and
whether the 2D-texture shader path (`height > 1 || isInputHalfDomain`) was
emitted. -/
structure Lut1DShaderResult where
  width : Nat
  height : Nat
  texels : List ℚ
  usesTex2D : Bool
  deriving Repr, DecidableEq

/-- `GetLut1DGPUShaderProgram` (Lut1DOpGPU.cpp lines 83-283): derives the
texture geometry from the LUT length and the hardware width ceiling, packs
the texels, registers them, and selects the shader path.  The function
performs no validation of its own; it fails (`none`) only when
`PadLutChannels` reads out of range or when `&values[0]` is taken on an
empty vector. -/
def GetLut1DGPUShaderProgram (maxTextureWidth lutLength : Nat)
    (vals : List ℚ) (isInputHalfDomain : Bool) : Option Lut1DShaderResult :=
  let width := min lutLength maxTextureWidth
  let height := lutLength / maxTextureWidth + 1
  match PadLutChannels width height vals with
  | none => none
  | some texels =>
    if texels = [] then none
    else some { width := width, height := height, texels := texels,
                usesTex2D := decide (1 < height) || isInputHalfDomain }

/-! ### ColorSpaceSet (ColorSpaceSet.cpp) -/

/-- A color space as far as `ColorSpaceSet` observes it: its name plus the
rest of its state (`createEditableCopy` copies everything, so the payload
travels unchanged). -/
structure ColorSpace where
  name : String
  payload : Nat
  deriving Repr, DecidableEq

/-- `pystring::lower`: lowercasing of every character of the string. -/
def lowerStr (s : String) : String := ⟨s.data.map Char.toLower⟩

/-- The case-insensitive key under which `ColorSpaceSet::Impl` compares
color-space names. -/
def csKey (cs : ColorSpace) : String := lowerStr cs.name

/-- The `m_colorSpaces` vector of `ColorSpaceSet::Impl`. -/
abbrev CsList := List ColorSpace

/-- The scan of `ColorSpaceSet::Impl::add` (ColorSpaceSet.cpp lines
124-134): the first entry whose lowercased name matches is overwritten in
place; otherwise the color space is appended. -/
def csReplace : CsList → ColorSpace → CsList
  | [], cs => [cs]
  | e :: rest, cs =>
    if csKey e = csKey cs then cs :: rest else e :: csReplace rest cs

/-- `ColorSpaceSet::Impl::add(cs)` (ColorSpaceSet.cpp lines 116-135):
throws (`none`) on an empty name, otherwise replaces the case-insensitive
match in place or appends. -/
def csAdd (s : CsList) (cs : ColorSpace) : Option CsList :=
  if lowerStr cs.name = "" then none else some (csReplace s cs)

/-- `ColorSpaceSet::Impl::add(rhs)` (lines 137-143): adds the members of
`rhs` in order. -/
def csAddAll (s rhs : CsList) : Option CsList := rhs.foldlM csAdd s

/-- The erase scan of `ColorSpaceSet::Impl::remove` (lines 150-157):
removes the first entry whose lowercased name equals the key. -/
def csRemoveFirst : CsList → String → CsList
  | [], _ => []
  | e :: rest, k => if csKey e = k then rest else e :: csRemoveFirst rest k

/-- `ColorSpaceSet::Impl::remove(name)` (lines 145-158): no-op on an empty
name, otherwise erases the first case-insensitive match. -/
def csRemove (s : CsList) (nm : String) : CsList :=
  if lowerStr nm = "" then s else csRemoveFirst s (lowerStr nm)

/-- `ColorSpaceSet::Impl::remove(rhs)` (lines 160-166). -/
def csRemoveAll (s rhs : CsList) : CsList :=
  rhs.foldl (fun acc cs => csRemove acc cs.name) s

/-- `ColorSpaceSet::Impl::clear` (lines 168-171). -/
def csClear (_ : CsList) : CsList := []

/-- `ColorSpaceSet::getIndexForColorSpace` via `Impl::getIndex` (lines
99-114): `-1` for a null/empty name or a miss, otherwise the index of the
first case-insensitive match. -/
def csGetIndex (s : CsList) (nm : String) : Int :=
  if nm = "" then -1
  else
    match s.findIdx? (fun e => csKey e = lowerStr nm) with
    | some i => (i : Int)
    | none => -1

/-- `operator||` (ColorSpaceSet.cpp lines 274-280): an editable copy of the
left set, then `addColorSpaces` of the right set. -/
def csUnion (l r : CsList) : Option CsList := csAddAll l r

/-- `operator&&` (lines 282-297): a fresh set receiving, in right-set
order, every right member whose name is present in the left set. -/
def csInter (l r : CsList) : Option CsList :=
  r.foldlM (fun acc cs =>
    if csGetIndex l cs.name ≠ -1 then csAdd acc cs else pure acc) []

/-- `operator-` (lines 299-315): a fresh set receiving, in left-set order,
every left member whose name is absent from the right set. -/
def csDiff (l r : CsList) : Option CsList :=
  l.foldlM (fun acc cs =>
    if csGetIndex r cs.name = -1 then csAdd acc cs else pure acc) []

/-- The invariant of claim C10: the names of the members are pairwise
distinct under case-insensitive comparison. -/
def CsDistinct (s : CsList) : Prop := (s.map csKey).Nodup

instance (s : CsList) : Decidable (CsDistinct s) := by
  unfold CsDistinct; infer_instance

/-- The input of the spec's concrete scenario 3 (and of the C++ unit test
`pad_lut_two_dimension_2`): nine RGB triples `(i, i + 0.1, i + 0.2)`. -/
def scenario3Input : List ℚ :=
  (List.range 9).flatMap fun i => [(i : ℚ), (i : ℚ) + 1 / 10, (i : ℚ) + 2 / 10]

/-! ## Theorems -/

/-- C6: for width 4, height 3 and nine input triples `(i, i + 0.1, i + 0.2)`
(`i = 0..8`), `PadLutChannels` returns exactly 36 floats: triples
0,1,2,3 then 3,4,5,6 then 6,7,8,8 in order — triples 3 and 6 duplicated at
the row boundaries and the final triple 8 repeated once. -/
theorem pad_exact_division_scenario :
    PadLutChannels 4 3 scenario3Input =
      some (([0, 1, 2, 3, 3, 4, 5, 6, 6, 7, 8, 8] : List Nat).flatMap
        fun i => [(i : ℚ), (i : ℚ) + 1 / 10, (i : ℚ) + 2 / 10]) ∧
    (([0, 1, 2, 3, 3, 4, 5, 6, 6, 7, 8, 8] : List Nat).flatMap
        fun i => [(i : ℚ), (i : ℚ) + 1 / 10, (i : ℚ) + 2 / 10]).length = 36 := by
  constructor <;> rfl

/-- C1 counterexample: the input (width 2, height 2, empty value list)
satisfies the claim's stated preconditions (width ≥ 2, length divisible
by 3), yet `PadLutChannels` performs an out-of-range read — the unsigned
loop bound `currWidth - step` wraps around — so no output of `3*2*2`
floats is produced. -/
theorem pad_length_counterexample :
    (1 < 2 → 2 ≤ 2) ∧ (3 ∣ ([] : List ℚ).length) ∧
    ¬ ∃ out, PadLutChannels 2 2 ([] : List ℚ) = some out ∧
        out.length = 3 * 2 * 2 := by
  refine ⟨fun _ => le_refl 2, ⟨0, rfl⟩, ?_⟩
  rintro ⟨out, hout, -⟩
  rw [show PadLutChannels 2 2 ([] : List ℚ) = none from by decide] at hout
  exact Option.noConfusion hout

/-- C4, the code evaluated at the failing input: for a LUT of length 1 —
below the claimed minimum of 2 — `GetLut1DGPUShaderProgram` does not
fault; it silently returns a 1-by-1 texture and takes the single-row
shader path. -/
theorem getLut1D_no_fault_on_short_lut :
    GetLut1DGPUShaderProgram 4096 1 [0, 0, 0] false =
      some ⟨1, 1, [0, 0, 0], false⟩ := by decide

/-- C5 counterexample: at `f = 0` the synthesized sign term
`step(f, 0.0) * 32768` contributes 32768, not 0: `computeDep 0` differs
from the magnitude-only value `depMag 0`. -/
theorem signTerm_counterexample : computeDep 0 ≠ depMag 0 := by
  have h : computeDep 0 = depMag 0 + 32768 := by
    unfold computeDep stepFn
    norm_num
  rw [h]
  intro habs
  linarith

/-- C5 amended: the sign term adds 32768 to `dep` exactly when `f ≤ 0` —
the GLSL `step(f, 0.0)` also fires at `f = 0`, mapping +0.0 to the bit
pattern of -0.0 — and adds nothing when `f > 0`. -/
theorem signTerm_amended (f : ℚ) :
    computeDep f = depMag f + (if f ≤ 0 then 32768 else 0) := by
  unfold computeDep stepFn
  by_cases h : (0 : ℚ) < f
  · rw [if_pos h, if_neg (not_le.mpr h)]; ring
  · rw [if_neg h, if_pos (not_lt.mp h)]; ring

/-- The row/column decomposition used by the half-domain helper recombines
to `dep` for any width: `row * (width-1) + column = dep`. -/
theorem linIndex_eq_computeDep (w : Nat) (f : ℚ) :
    halfRow w f * ((w : ℚ) - 1) + halfCol w f = computeDep f := by
  unfold halfCol
  ring

/-- The half bit pattern 0 decodes to the value +0.0. -/
theorem halfToRat_zero : halfToRat 0 = 0 := by norm_num [halfToRat]

/-- The magnitude part of the synthesized half-domain address is 0 at
input 0 (denormal branch). -/
theorem depMag_zero : depMag 0 = 0 := by
  norm_num [depMag, HALF_NRM_MIN, HALF_DENRM_MAX]

/-- C2 counterexample: at `k = 0` — the bit pattern of +0.0 — the
synthesized half-domain addressing yields linear index 32768 (the pattern
of -0.0), not 0, here at texture width 4096. -/
theorem halfAddressing_counterexample :
    halfRow 4096 (halfToRat 0) * ((4096 : ℚ) - 1) +
      halfCol 4096 (halfToRat 0) ≠ 0 := by
  rw [halfToRat_zero]
  have h := linIndex_eq_computeDep 4096 0
  push_cast at h
  rw [h]
  have h2 : computeDep 0 = 32768 := by
    unfold computeDep stepFn
    rw [depMag_zero]
    norm_num
  rw [h2]
  norm_num

/-- C7: for every nonnegative `dep` and width ≥ 2, the half-domain row
formula `floor(dep / (width-1))` and the float-domain row formula
`float(int(dep / (width-1)))` (truncation toward zero) produce the same
row value. -/
theorem floor_row_eq_trunc_row (dep : ℚ) (w : Nat) (hdep : 0 ≤ dep)
    (hw : 2 ≤ w) : halfRowOfDep w dep = floatRow w dep := by
  unfold halfRowOfDep floatRow intTrunc
  have hw1 : (0 : ℚ) < (w : ℚ) - 1 := by
    have : (2 : ℚ) ≤ (w : ℚ) := by exact_mod_cast hw
    linarith
  set q := dep / ((w : ℚ) - 1) with hq
  have hq0 : 0 ≤ q := div_nonneg hdep hw1.le
  have h1 : q.num.tdiv q.den = q.num / (q.den : ℤ) :=
    Int.tdiv_eq_ediv (Rat.num_nonneg.mpr hq0) (Int.ofNat_nonneg q.den)
  have h2 : ⌊q⌋ = q.num.tdiv q.den := by rw [Rat.floor_def, h1]
  exact_mod_cast h2

/-- Witness for `floor_row_eq_trunc_row` at `dep = 5`, `width = 3`. -/
theorem floor_row_eq_trunc_row_witness :
    (0 : ℚ) ≤ 5 ∧ 2 ≤ 3 ∧ halfRowOfDep 3 5 = floatRow 3 5 :=
  ⟨by norm_num, by norm_num, floor_row_eq_trunc_row 5 3 (by norm_num) (by norm_num)⟩


theorem depMag_neg (f : ℚ) : depMag (-f) = depMag f := by
  simp [depMag, abs_neg]

theorem depMag_denorm (m : Nat) (hm : m ≤ 1024) :
    depMag ((m : ℚ) / 2 ^ 24) = m := by
  have hnn : (0:ℚ) ≤ (m:ℚ) / 2 ^ 24 := by positivity
  have hlt : ¬ (HALF_NRM_MIN < |(m : ℚ) / 2 ^ 24|) := by
    rw [abs_of_nonneg hnn, HALF_NRM_MIN]
    push_neg
    rw [div_le_div_iff₀ (by norm_num) (by norm_num)]
    have : (m:ℚ) ≤ 1024 := by exact_mod_cast hm
    nlinarith
  simp only [depMag, if_neg hlt]
  rw [abs_of_nonneg hnn, HALF_DENRM_MAX]
  field_simp

theorem log2_eq {x : ℚ} {n : ℤ} (hx : 0 < x) (h1 : (2:ℚ) ^ n ≤ x)
    (h2 : x < (2:ℚ) ^ (n + 1)) : Int.log 2 x = n := by
  have hcast : ((2:ℕ) : ℚ) = (2:ℚ) := by norm_num
  have lo : n ≤ Int.log 2 x := by
    rw [← Int.zpow_le_iff_le_log one_lt_two hx, hcast]
    exact h1
  have hi : Int.log 2 x < n + 1 := by
    rw [← Int.lt_zpow_iff_log_lt one_lt_two hx, hcast]
    exact h2
  omega

theorem depMag_normal (e m : Nat) (he1 : 1 ≤ e) (he : e ≤ 30) (hm : m ≤ 1023)
    (hnm : 2 ≤ e ∨ 1 ≤ m) :
    depMag ((2:ℚ) ^ e / 2 ^ 15 * (1 + (m:ℚ) / 1024)) = (e:ℚ) * 1024 + m := by
  set x : ℚ := (2:ℚ) ^ e / 2 ^ 15 * (1 + (m:ℚ) / 1024) with hxdef
  have hm' : (m:ℚ) ≤ 1023 := by exact_mod_cast hm
  have hm0 : (0:ℚ) ≤ (m:ℚ) := Nat.cast_nonneg m
  have hxpos : 0 < x := by rw [hxdef]; positivity
  have habs : |x| = x := abs_of_pos hxpos
  have hzpow : x = (2:ℚ) ^ ((e:ℤ) - 15) * (1 + (m:ℚ) / 1024) := by
    rw [hxdef, zpow_sub₀ (by norm_num : (2:ℚ) ≠ 0), zpow_natCast]
    norm_num
  have hfac1 : (1:ℚ) ≤ 1 + (m:ℚ) / 1024 := by
    have : (0:ℚ) ≤ (m:ℚ) / 1024 := by positivity
    linarith
  have hfac2 : 1 + (m:ℚ) / 1024 < 2 := by
    have : (m:ℚ) / 1024 < 1 := by rw [div_lt_one (by norm_num)]; linarith
    linarith
  have hxalt : x = ((2:ℚ) ^ e * (1 + (m:ℚ) / 1024)) / 2 ^ 15 := by
    rw [hxdef]; ring
  have key : (2:ℚ) < 2 ^ e * (1 + (m:ℚ) / 1024) := by
    rcases hnm with h2 | h1
    · have h4 : (4:ℚ) ≤ 2 ^ e := by
        calc (4:ℚ) = 2 ^ 2 := by norm_num
        _ ≤ 2 ^ e := pow_le_pow_right₀ (by norm_num) h2
      nlinarith
    · have h2e : (2:ℚ) ≤ 2 ^ e := by
        calc (2:ℚ) = 2 ^ 1 := by norm_num
        _ ≤ 2 ^ e := pow_le_pow_right₀ (by norm_num) he1
      have hm1 : (1:ℚ) ≤ (m:ℚ) := by exact_mod_cast h1
      nlinarith
  have hgt : HALF_NRM_MIN < |x| := by
    rw [habs, HALF_NRM_MIN, hxalt, lt_div_iff₀ (by norm_num : (0:ℚ) < 2 ^ 15)]
    norm_num
    linarith
  have hle : x ≤ HALF_MAX := by
    rw [HALF_MAX, hxalt, div_le_iff₀ (by norm_num : (0:ℚ) < 2 ^ 15)]
    have h30 : (2:ℚ) ^ e ≤ 2 ^ 30 := pow_le_pow_right₀ (by norm_num) he
    have hf : 1 + (m:ℚ) / 1024 ≤ 2047 / 1024 := by linarith
    calc (2:ℚ) ^ e * (1 + (m:ℚ) / 1024) ≤ 2 ^ 30 * (2047 / 1024) := by
          apply mul_le_mul h30 hf (by positivity) (by positivity)
    _ = 65504 * 2 ^ 15 := by norm_num
  have hlog : Int.log 2 x = (e:ℤ) - 15 := by
    apply log2_eq hxpos
    · rw [hzpow]
      exact le_mul_of_one_le_right (by positivity) hfac1
    · rw [hzpow, zpow_add₀ (by norm_num : (2:ℚ) ≠ 0) ((e:ℤ) - 15) 1]
      have hLpos : (0:ℚ) < (2:ℚ) ^ ((e:ℤ) - 15) := by positivity
      calc (2:ℚ) ^ ((e:ℤ) - 15) * (1 + (m:ℚ) / 1024)
          < (2:ℚ) ^ ((e:ℤ) - 15) * 2 := mul_lt_mul_of_pos_left hfac2 hLpos
      _ = (2:ℚ) ^ ((e:ℤ) - 15) * (2:ℚ) ^ (1:ℤ) := by norm_num
  simp only [depMag, NEG_MIN_EXP, EXP_SCALE, if_pos hgt]
  rw [habs, min_eq_left hle, hlog]
  have hmant : (x - (2:ℚ) ^ ((e:ℤ) - 15)) / (2:ℚ) ^ ((e:ℤ) - 15) = (m:ℚ) / 1024 := by
    have hLpos : (0:ℚ) < (2:ℚ) ^ ((e:ℤ) - 15) := by positivity
    rw [hzpow]
    field_simp
    ring
  rw [hmant]
  push_cast
  ring

theorem stepFn_pos {f : ℚ} (h : 0 < f) : stepFn f 0 = 0 := by
  unfold stepFn; exact if_pos h

theorem stepFn_nonpos {f : ℚ} (h : f ≤ 0) : stepFn f 0 = 1 := by
  unfold stepFn; exact if_neg (not_lt.mpr h)

theorem computeDep_bits (s e m : Nat) (hs : s ≤ 1) (he : e ≤ 30) (hm : m ≤ 1023)
    (hnz : s * 32768 + e * 1024 + m ≠ 0) :
    computeDep (halfToRat (s * 32768 + e * 1024 + m)) =
      (s : ℚ) * 32768 + (e : ℚ) * 1024 + (m : ℚ) := by
  have h1 : ((s * 32768 + e * 1024 + m) / 32768) % 2 = s := by omega
  have h2 : ((s * 32768 + e * 1024 + m) / 1024) % 32 = e := by omega
  have h3 : (s * 32768 + e * 1024 + m) % 1024 = m := by omega
  unfold halfToRat
  rw [h1, h2, h3]
  interval_cases s
  · rw [if_neg (by decide : ¬ (0:ℕ) = 1), one_mul]
    by_cases he0 : e = 0
    · subst he0
      have hm1 : 1 ≤ m := by omega
      have hmq : (0:ℚ) < (m:ℚ) / 2 ^ 24 := by
        have : (1:ℚ) ≤ (m:ℚ) := by exact_mod_cast hm1
        positivity
      rw [if_pos rfl]
      unfold computeDep
      rw [stepFn_pos hmq, depMag_denorm m (by omega)]
      push_cast
      ring
    · rw [if_neg he0]
      by_cases hsp : e = 1 ∧ m = 0
      · obtain ⟨he1, hm0⟩ := hsp
        subst he1; subst hm0
        rw [show (2:ℚ) ^ (1:ℕ) / 2 ^ 15 * (1 + ((0:ℕ):ℚ) / 1024) =
          ((1024 : ℕ) : ℚ) / 2 ^ 24 from by norm_num]
        unfold computeDep
        rw [depMag_denorm 1024 le_rfl,
          stepFn_pos (by positivity : (0:ℚ) < ((1024:ℕ):ℚ) / 2 ^ 24)]
        norm_num
      · have he1 : 1 ≤ e := by omega
        have hnm : 2 ≤ e ∨ 1 ≤ m := by
          rcases Nat.lt_or_ge e 2 with h | h
          · right; omega
          · left; exact h
        unfold computeDep
        have hfpos : (0:ℚ) < (2:ℚ) ^ e / 2 ^ 15 * (1 + (m:ℚ) / 1024) := by positivity
        rw [stepFn_pos hfpos, depMag_normal e m he1 he hm hnm]
        push_cast
        ring
  · rw [if_pos rfl, neg_one_mul]
    by_cases he0 : e = 0
    · subst he0
      rw [if_pos rfl]
      unfold computeDep
      rw [stepFn_nonpos (neg_nonpos.mpr (by positivity : (0:ℚ) ≤ (m:ℚ) / 2 ^ 24)),
        depMag_neg, depMag_denorm m (by omega)]
      push_cast
      ring
    · rw [if_neg he0]
      by_cases hsp : e = 1 ∧ m = 0
      · obtain ⟨he1, hm0⟩ := hsp
        subst he1; subst hm0
        rw [show (2:ℚ) ^ (1:ℕ) / 2 ^ 15 * (1 + ((0:ℕ):ℚ) / 1024) =
          ((1024 : ℕ) : ℚ) / 2 ^ 24 from by norm_num]
        unfold computeDep
        rw [stepFn_nonpos (neg_nonpos.mpr
            (by positivity : (0:ℚ) ≤ ((1024:ℕ):ℚ) / 2 ^ 24)),
          depMag_neg, depMag_denorm 1024 le_rfl]
        norm_num
      · have he1 : 1 ≤ e := by omega
        have hnm : 2 ≤ e ∨ 1 ≤ m := by
          rcases Nat.lt_or_ge e 2 with h | h
          · right; omega
          · left; exact h
        unfold computeDep
        have hfnn : (0:ℚ) ≤ (2:ℚ) ^ e / 2 ^ 15 * (1 + (m:ℚ) / 1024) := by positivity
        rw [stepFn_nonpos (neg_nonpos.mpr hfnn), depMag_neg,
          depMag_normal e m he1 he hm hnm]
        push_cast
        ring



theorem computeDep_halfToRat (k : Nat) (hk : k ≤ 65535) (h0 : k ≠ 0)
    (hfin : (k / 1024) % 32 ≠ 31) : computeDep (halfToRat k) = (k : ℚ) := by
  have hdec : (k / 32768) * 32768 + ((k / 1024) % 32) * 1024 + k % 1024 = k := by
    omega
  have hs : k / 32768 ≤ 1 := by omega
  have he : (k / 1024) % 32 ≤ 30 := by omega
  have hm : k % 1024 ≤ 1023 := by omega
  have hnz : (k / 32768) * 32768 + ((k / 1024) % 32) * 1024 + k % 1024 ≠ 0 := by
    omega
  have hbits := computeDep_bits (k / 32768) ((k / 1024) % 32) (k % 1024)
    hs he hm hnz
  rw [hdec] at hbits
  rw [hbits]
  exact_mod_cast hdec

/-- C2 amended: for every integer `k` in `[0, 65535]` other than 0 whose
half-precision bit pattern encodes a finite value (exponent field not 31 —
infinities and NaNs are not producible by the floating-point
reconstruction, and +0.0 lands on the index of -0.0), the synthesized
addressing recovers row/column coordinates whose linear index
`row * (width-1) + column` equals `k`. -/
theorem halfAddressing_roundtrip (k : Nat) (hk : k ≤ 65535) (h0 : k ≠ 0)
    (hfin : (k / 1024) % 32 ≠ 31) (w : Nat) (_hw : 2 ≤ w) :
    halfRow w (halfToRat k) * ((w : ℚ) - 1) + halfCol w (halfToRat k) =
      (k : ℚ) := by
  rw [linIndex_eq_computeDep]
  exact computeDep_halfToRat k hk h0 hfin

/-- Witness for `halfAddressing_roundtrip` at `k = 15360` (the pattern of
1.0) and width 4096. -/
theorem halfAddressing_roundtrip_witness :
    15360 ≤ 65535 ∧ 15360 ≠ 0 ∧ (15360 / 1024) % 32 ≠ 31 ∧ 2 ≤ 4096 ∧
    halfRow 4096 (halfToRat 15360) * (((4096 : ℕ) : ℚ) - 1) +
      halfCol 4096 (halfToRat 15360) = (15360 : ℚ) :=
  ⟨by decide, by decide, by decide, by decide,
    halfAddressing_roundtrip 15360 (by decide) (by decide) (by decide) 4096
      (by decide)⟩



theorem usub_of_le {a b : Nat} (h : b ≤ a) : usub a b = a - b := if_pos h

theorem usub_of_gt {a b : Nat} (h : a < b) : usub a b = a + 2 ^ 64 - b :=
  if_neg (by omega)

theorem sanitize_map (l : List ℚ) : l.map SanitizeFloat = l :=
  List.map_id'' (congrFun rfl) l

theorem readRange_eq (l : List ℚ) (lo hi : Nat) (h : hi ≤ l.length) :
    readRange l lo hi = some ((l.drop lo).take (hi - lo)) := if_pos h

theorem take_extend (l : List ℚ) (a m : Nat) (x : ℚ)
    (hx : l[a + m]? = some x) :
    (l.drop a).take m ++ [x] = (l.drop a).take (m + 1) := by
  rw [List.take_succ, List.getElem?_drop, hx]
  rfl

theorem take_extend3 (l : List ℚ) (a m : Nat) (x y z : ℚ)
    (hx : l[a + m]? = some x) (hy : l[a + m + 1]? = some y)
    (hz : l[a + m + 2]? = some z) :
    (l.drop a).take m ++ [x, y, z] = (l.drop a).take (m + 3) := by
  have e1 := take_extend l a m x hx
  have e2 := take_extend l a (m + 1) y (by rw [(rfl : a + (m + 1) = a + m + 1)]; exact hy)
  have e3 := take_extend l a (m + 2) z (by rw [(rfl : a + (m + 2) = a + m + 2)]; exact hz)
  calc (l.drop a).take m ++ [x, y, z]
      = (((l.drop a).take m ++ [x]) ++ [y]) ++ [z] := by
        simp [List.append_assoc]
    _ = ((l.drop a).take (m + 1) ++ [y]) ++ [z] := by rw [e1]
    _ = (l.drop a).take (m + 2) ++ [z] := by rw [e2]
    _ = (l.drop a).take (m + 3) := by rw [e3]

theorem padStepLoop_step (ch : List ℚ) (step bound fuel i : Nat) (acc : List ℚ)
    (leftover : Nat) (seg : List ℚ) (x y z : ℚ) (hi : i < bound)
    (hstep : step ≠ 0)
    (hr : readRange ch (3 * i) (3 * (i + step)) = some seg)
    (hx : ch[3 * (i + step)]? = some x)
    (hy : ch[3 * (i + step) + 1]? = some y)
    (hz : ch[3 * (i + step) + 2]? = some z) :
    padStepLoop ch step bound (fuel + 1) i acc leftover =
      padStepLoop ch step bound fuel (i + step)
        (acc ++ seg.map SanitizeFloat ++
          [SanitizeFloat x, SanitizeFloat y, SanitizeFloat z])
        (usub leftover step) := by
  simp only [padStepLoop]
  rw [if_pos hi, if_neg hstep, hr, hx, hy, hz]

theorem padStepLoop_exit (ch : List ℚ) (step bound fuel i : Nat) (acc : List ℚ)
    (leftover : Nat) (hi : ¬ i < bound) :
    padStepLoop ch step bound fuel i acc leftover = some (acc, leftover) := by
  cases fuel <;> simp only [padStepLoop] <;> rw [if_neg hi]

theorem padStepLoop_spec (ch : List ℚ) (n s : Nat) (hch : ch.length = 3 * n)
    (hs : 1 ≤ s) (hsn : s ≤ n) :
    ∀ fuel i acc, i < n → n - s ≤ i + fuel * s →
      ∃ K, padStepLoop ch s (n - s) fuel i acc (n - i) =
          some (acc ++ ((List.range K).map
            (fun j => (ch.drop (3 * (i + j * s))).take (3 * s + 3))).flatten,
            n - (i + K * s)) ∧
        n - s ≤ i + K * s ∧ i + K * s < n := by
  intro fuel
  induction fuel with
  | zero =>
    intro i acc hi hib
    refine ⟨0, ?_, by omega, by omega⟩
    rw [padStepLoop_exit ch s (n - s) 0 i acc (n - i) (by omega)]
    simp
  | succ fuel ih =>
    intro i acc hi hib
    rw [Nat.succ_mul] at hib
    by_cases hib2 : i < n - s
    · have h0 : 3 * (i + s) < ch.length := by omega
      have h1 : 3 * (i + s) + 1 < ch.length := by omega
      have h2 : 3 * (i + s) + 2 < ch.length := by omega
      obtain ⟨x, hx⟩ : ∃ v, ch[3 * (i + s)]? = some v :=
        ⟨_, List.getElem?_eq_getElem h0⟩
      obtain ⟨y, hy⟩ : ∃ v, ch[3 * (i + s) + 1]? = some v :=
        ⟨_, List.getElem?_eq_getElem h1⟩
      obtain ⟨z, hz⟩ : ∃ v, ch[3 * (i + s) + 2]? = some v :=
        ⟨_, List.getElem?_eq_getElem h2⟩
      rw [padStepLoop_step ch s (n - s) fuel i acc (n - i)
        ((ch.drop (3 * i)).take (3 * (i + s) - 3 * i)) x y z hib2
        (by omega) (readRange_eq ch _ _ (by omega)) hx hy hz]
      rw [usub_of_le (by omega : s ≤ n - i),
        (by omega : n - i - s = n - (i + s)), sanitize_map]
      simp only [SanitizeFloat]
      rw [(by omega : 3 * (i + s) - 3 * i = 3 * s)]
      have hslice : (ch.drop (3 * i)).take (3 * s) ++ [x, y, z] =
          (ch.drop (3 * i)).take (3 * s + 3) := by
        apply take_extend3 ch (3 * i) (3 * s) x y z
        · rw [(by omega : 3 * i + 3 * s = 3 * (i + s))]; exact hx
        · rw [(by omega : 3 * i + 3 * s + 1 = 3 * (i + s) + 1)]; exact hy
        · rw [(by omega : 3 * i + 3 * s + 2 = 3 * (i + s) + 2)]; exact hz
      obtain ⟨K', hK', c1, c2⟩ :=
        ih (i + s) (acc ++ (ch.drop (3 * i)).take (3 * s) ++ [x, y, z])
          (by omega) (by omega)
      refine ⟨K' + 1, ?_, by rw [Nat.succ_mul]; omega,
        by rw [Nat.succ_mul]; omega⟩
      rw [hK']
      have hchunk :
          ((List.range (K' + 1)).map
            (fun j => (ch.drop (3 * (i + j * s))).take (3 * s + 3))).flatten =
          (ch.drop (3 * i)).take (3 * s + 3) ++
          ((List.range K').map
            (fun j => (ch.drop (3 * (i + s + j * s))).take (3 * s + 3))).flatten := by
        rw [List.range_succ_eq_map]
        simp only [List.map_cons, List.flatten_cons, List.map_map]
        congr 1
        · simp
        · apply congrArg
          apply List.map_congr_left
          intro j hj
          have harg : i + (j + 1) * s = i + s + j * s := by
            rw [Nat.succ_mul]; omega
          simp [Function.comp, harg]
      rw [hchunk]
      have hlo : n - (i + s + K' * s) = n - (i + (K' + 1) * s) := by
        rw [Nat.succ_mul]; omega
      rw [hlo, ← hslice]
      simp [List.append_assoc]
    · refine ⟨0, ?_, by omega, by omega⟩
      rw [padStepLoop_exit ch s (n - s) (fuel + 1) i acc (n - i) hib2]
      simp



theorem PadLutChannels_of_body {w h : Nat} {ch b : List ℚ}
    (hb : padBody w h ch = some b) :
    PadLutChannels w h ch = padTail w h ch b := by
  unfold PadLutChannels
  rw [hb]

theorem PadLutChannels_of_body_none {w h : Nat} {ch : List ℚ}
    (hb : padBody w h ch = none) : PadLutChannels w h ch = none := by
  unfold PadLutChannels
  rw [hb]

theorem padBody_of_loop {w h : Nat} {ch : List ℚ} (hh : 1 < h)
    {acc seg : List ℚ} {leftover : Nat} {x y z : ℚ}
    (hloop : padStepLoop ch (usub w 1) (usub (ch.length / 3) (usub w 1))
      (usub (ch.length / 3) (usub w 1)) 0 [] (ch.length / 3) =
      some (acc, leftover))
    (hpos : 0 < leftover)
    (hr : readRange ch (3 * usub (ch.length / 3) leftover)
      (3 * usub (ch.length / 3) 1) = some seg)
    (hx : ch[3 * usub (ch.length / 3) 1]? = some x)
    (hy : ch[3 * usub (ch.length / 3) 1 + 1]? = some y)
    (hz : ch[3 * usub (ch.length / 3) 1 + 2]? = some z) :
    padBody w h ch = some (acc ++ seg.map SanitizeFloat ++
      [SanitizeFloat x, SanitizeFloat y, SanitizeFloat z]) := by
  simp only [padBody]
  rw [if_pos hh, hloop]
  dsimp only
  rw [if_pos hpos, hr, hx, hy, hz]

theorem padBody_of_loop_none {w h : Nat} {ch : List ℚ} (hh : 1 < h)
    (hloop : padStepLoop ch (usub w 1) (usub (ch.length / 3) (usub w 1))
      (usub (ch.length / 3) (usub w 1)) 0 [] (ch.length / 3) = none) :
    padBody w h ch = none := by
  simp only [padBody]
  rw [if_pos hh, hloop]

theorem padTail_of_zero {w h : Nat} {ch b : List ℚ}
    (hm : usub (w * h) (b.length / 3) = 0) : padTail w h ch b = some b := by
  simp only [padTail]
  rw [hm]
  simp

theorem padTail_of_pos {w h : Nat} {ch b : List ℚ} {x y z : ℚ}
    (hm : usub (w * h) (b.length / 3) ≠ 0)
    (hx : ch[3 * usub (ch.length / 3) 1]? = some x)
    (hy : ch[3 * usub (ch.length / 3) 1 + 1]? = some y)
    (hz : ch[3 * usub (ch.length / 3) 1 + 2]? = some z) :
    padTail w h ch b = some (b ++
      (List.replicate (usub (w * h) (b.length / 3))
        [SanitizeFloat x, SanitizeFloat y, SanitizeFloat z]).flatten) := by
  simp only [padTail]
  rw [if_neg hm, hx, hy, hz]



theorem div_mul_add (w K q : Nat) (hw : 0 < w) (hq : q < w) :
    (K * w + q) / w = K ∧ (K * w + q) % w = q := by
  constructor
  · rw [Nat.add_comm, Nat.add_mul_div_right _ _ hw, Nat.div_eq_of_lt hq,
      Nat.zero_add]
  · rw [Nat.mul_add_mod' K w q, Nat.mod_eq_of_lt hq]

theorem slice_length (l : List ℚ) (a m : Nat) (h : a + m ≤ l.length) :
    ((l.drop a).take m).length = m := by
  simp only [List.length_take, List.length_drop]
  omega

theorem tripleAt_len (l : List ℚ) (j : Nat) (h : 3 * j + 3 ≤ l.length) :
    (tripleAt l j).length = 3 := by
  unfold tripleAt
  exact slice_length l (3 * j) 3 (by omega)

/-- Consecutive triples form a contiguous slice. -/
theorem flatten_tripleAt_range (ch : List ℚ) (a m : Nat)
    (h : 3 * (a + m) ≤ ch.length) :
    ((List.range m).map (fun c => tripleAt ch (a + c))).flatten =
      (ch.drop (3 * a)).take (3 * m) := by
  induction m with
  | zero => simp
  | succ m ih =>
    rw [List.range_succ, List.map_append, List.flatten_append,
      ih (by omega)]
    simp only [List.map_cons, List.map_nil, List.flatten_cons,
      List.flatten_nil, List.append_nil]
    rw [(by omega : 3 * (m + 1) = 3 * m + 3), List.take_add]
    congr 1
    unfold tripleAt
    rw [List.drop_drop]
    congr 2
    omega

/-- Extracting one triple out of a flattened list of length-3 triples. -/
theorem tripleAt_flatten : ∀ (ll : List (List ℚ)) (p : Nat),
    (∀ t ∈ ll, t.length = 3) → (hp : p < ll.length) →
    tripleAt ll.flatten p = ll[p] := by
  intro ll
  induction ll with
  | nil => intro p _ hp; simp at hp
  | cons t rest ih =>
    intro p hlen hp
    cases p with
    | zero =>
      unfold tripleAt
      simp only [Nat.mul_zero, List.drop_zero, List.flatten_cons]
      rw [List.take_left' (hlen t (List.mem_cons_self t rest))]
      rfl
    | succ p =>
      have h3 : t.length = 3 := hlen t (List.mem_cons_self t rest)
      unfold tripleAt
      simp only [List.flatten_cons]
      rw [(by omega : 3 * (p + 1) = t.length + 3 * p), List.drop_append]
      have := ih p (fun u hu => hlen u (List.mem_cons_of_mem t hu))
        (by simpa using hp)
      unfold tripleAt at this
      rw [this]
      rfl



/-- The first `K` full texture rows of the packed layout, read through the
addressing formula, are exactly the loop's emitted chunks. -/
theorem spec_rows (ch : List ℚ) (n s K : Nat) (hs : 1 ≤ s)
    (hch : ch.length = 3 * n) (hK : K * s + 1 ≤ n) :
    ((List.range (K * (s + 1))).map (fun p =>
      tripleAt ch (min (p / (s + 1) * s + p % (s + 1)) (n - 1)))).flatten =
    ((List.range K).map
      (fun j => (ch.drop (3 * (j * s))).take (3 * s + 3))).flatten := by
  induction K with
  | zero => simp
  | succ K ih =>
    have hKmul : (K + 1) * s = K * s + s := Nat.succ_mul K s
    have hK' : K * s + 1 ≤ n := by omega
    rw [(by ring : (K + 1) * (s + 1) = K * (s + 1) + (s + 1)), List.range_add,
      List.map_append, List.flatten_append, ih hK']
    conv_rhs => rw [List.range_succ, List.map_append, List.flatten_append]
    congr 1
    rw [List.map_map]
    simp only [List.map_cons, List.map_nil, List.flatten_cons,
      List.flatten_nil, List.append_nil]
    have hrow : ∀ c ∈ List.range (s + 1),
        ((fun p => tripleAt ch (min (p / (s + 1) * s + p % (s + 1)) (n - 1)))
          ∘ (K * (s + 1) + ·)) c = tripleAt ch (K * s + c) := by
      intro c hc
      have hc' : c < s + 1 := List.mem_range.mp hc
      have hdm := div_mul_add (s + 1) K c (by omega) hc'
      simp only [Function.comp_apply]
      rw [hdm.1, hdm.2]
      congr 1
      exact min_eq_left (by omega)
    rw [List.map_congr_left hrow,
      flatten_tripleAt_range ch (K * s) (s + 1) (by omega)]
    congr 1

/-- Assembling the full packed buffer: the addressing formula read over
`K*(s+1) + L + M` flat positions yields the loop chunks, the final partial
row, and `M` copies of the last input triple. -/
theorem spec_assemble (ch : List ℚ) (n s K L M : Nat) (hs : 1 ≤ s)
    (hch : ch.length = 3 * n) (hL1 : 1 ≤ L) (hL2 : L ≤ s)
    (hKL : K * s + L = n) :
    ((List.range (K * (s + 1) + L + M)).map (fun p =>
      tripleAt ch (min (p / (s + 1) * s + p % (s + 1)) (n - 1)))).flatten =
    ((List.range K).map
      (fun j => (ch.drop (3 * (j * s))).take (3 * s + 3))).flatten ++
    (ch.drop (3 * (n - L))).take (3 * L) ++
    (List.replicate M (tripleAt ch (n - 1))).flatten := by
  have hKs1 : K * (s + 1) = K * s + K := by ring
  rw [List.range_add, List.map_append, List.flatten_append, List.range_add,
    List.map_append, List.flatten_append, List.map_map, List.map_map]
  rw [spec_rows ch n s K hs hch (by omega)]
  rw [List.append_assoc, List.append_assoc]
  congr 1
  congr 1
  · -- the final partial row
    have hpart : ∀ q ∈ List.range L,
        ((fun p => tripleAt ch (min (p / (s + 1) * s + p % (s + 1)) (n - 1)))
          ∘ (K * (s + 1) + ·)) q = tripleAt ch (K * s + q) := by
      intro q hq
      have hq' : q < L := List.mem_range.mp hq
      have hdm := div_mul_add (s + 1) K q (by omega) (by omega)
      simp only [Function.comp_apply]
      rw [hdm.1, hdm.2]
      congr 1
      exact min_eq_left (by omega)
    rw [List.map_congr_left hpart,
      flatten_tripleAt_range ch (K * s) L (by omega)]
    congr 2
    omega
  · -- the tail padding
    have hpad : ∀ q ∈ List.range M,
        ((fun p => tripleAt ch (min (p / (s + 1) * s + p % (s + 1)) (n - 1)))
          ∘ (K * (s + 1) + L + ·)) q = tripleAt ch (n - 1) := by
      intro q hq
      simp only [Function.comp_apply]
      congr 1
      have hmod : (K * (s + 1) + L + q) % (s + 1) < s + 1 :=
        Nat.mod_lt _ (by omega)
      have hdm := Nat.div_add_mod (K * (s + 1) + L + q) (s + 1)
      generalize hN : (K * (s + 1) + L + q) / (s + 1) = N at *
      generalize hc : (K * (s + 1) + L + q) % (s + 1) = c at *
      have hbig : n ≤ N * s + c := by
        have hdm' : (s + 1) * N + c = K * (s + 1) + L + q := hdm
        have e1 : (s + 1) * N = N * s + N := by ring
        have e2 : K * (s + 1) = K * s + K := by ring
        rcases Nat.lt_or_ge N K with hNK | hNK
        · exfalso
          have h5 : (N + 1) * s ≤ K * s := Nat.mul_le_mul_right s (by omega)
          have h6 : (N + 1) * s = N * s + s := by ring
          omega
        · rcases Nat.eq_or_lt_of_le hNK with hEq | hGt
          · subst hEq
            omega
          · have h4 : (K + 1) * s ≤ N * s := Nat.mul_le_mul_right s hGt
            have h5 : (K + 1) * s = K * s + s := by ring
            omega
      exact min_eq_right (by omega)
    rw [List.map_congr_left hpad]
    have : (List.range M).map (fun _ => tripleAt ch (n - 1)) =
        List.replicate M (tripleAt ch (n - 1)) := by
      rw [List.map_const']
      simp
    rw [this]



/-- Full characterization of `PadLutChannels` for the multi-row case: the
output is exactly the row-major layout read back through the addressing
formula `row = p / width`, `column = p % width`, source index
`min (row * (width-1) + column) (currWidth - 1)`, over `width * height`
positions (plus a wrapped-around tail when the row phase overflows the
texture, which cannot occur for geometry derived from the LUT length). -/
theorem PadLutChannels_spec (w h n : Nat) (ch : List ℚ) (hw : 2 ≤ w)
    (hh : 1 < h) (hch : ch.length = 3 * n) (hn : w - 1 ≤ n)
    (hlen : ch.length < 2 ^ 64) :
    PadLutChannels w h ch = some (((List.range
        (w * h + if n + (n - 1) / (w - 1) ≤ w * h then 0 else 2 ^ 64)).map
      (fun p => tripleAt ch (min (p / w * (w - 1) + p % w) (n - 1)))).flatten) := by
  obtain ⟨s, rfl⟩ : ∃ s, w = s + 1 := ⟨w - 1, by omega⟩
  simp only [Nat.add_sub_cancel] at hn ⊢
  have hs1 : 1 ≤ s := by omega
  have hn1 : 1 ≤ n := by omega
  have h3n : 3 * n < 2 ^ 64 := hch ▸ hlen
  obtain ⟨K, hK, c1, c2⟩ := padStepLoop_spec ch n s hch hs1 hn (n - s) 0 []
    (by omega) (by simp only [Nat.zero_add]; exact Nat.le_mul_of_pos_right (n - s) hs1)
  simp only [Nat.zero_add, Nat.sub_zero, List.nil_append] at hK c1 c2
  have hL1 : 1 ≤ n - K * s := by omega
  have hL2 : n - K * s ≤ s := by omega
  set L := n - K * s with hLdef
  have hLn : L ≤ n := by omega
  have hKs : K * s = n - L := by omega
  have hKdiv : (n - 1) / s = K :=
    Nat.div_eq_of_lt_le (by omega)
      (by have hsucc : (K + 1) * s = K * s + s := by ring
          omega)
  have hKn : K ≤ n - 1 := hKdiv ▸ Nat.div_le_self (n - 1) s
  have hu_w1 : usub (s + 1) 1 = s := by
    rw [usub_of_le (by omega)]
    omega
  have hn3 : ch.length / 3 = n := by omega
  have hu_ns : usub n s = n - s := usub_of_le (by omega)
  have hu_nL : usub n L = n - L := usub_of_le hLn
  have hu_n1 : usub n 1 = n - 1 := usub_of_le hn1
  obtain ⟨x, hx⟩ : ∃ v, ch[3 * usub (ch.length / 3) 1]? = some v := by
    rw [hn3, hu_n1]
    exact ⟨_, List.getElem?_eq_getElem (by omega)⟩
  obtain ⟨y, hy⟩ : ∃ v, ch[3 * usub (ch.length / 3) 1 + 1]? = some v := by
    rw [hn3, hu_n1]
    exact ⟨_, List.getElem?_eq_getElem (by omega)⟩
  obtain ⟨z, hz⟩ : ∃ v, ch[3 * usub (ch.length / 3) 1 + 2]? = some v := by
    rw [hn3, hu_n1]
    exact ⟨_, List.getElem?_eq_getElem (by omega)⟩
  have hx0 := hx; rw [hn3, hu_n1] at hx0
  have hy0 := hy; rw [hn3, hu_n1] at hy0
  have hz0 := hz; rw [hn3, hu_n1] at hz0
  have htrip : [x, y, z] = tripleAt ch (n - 1) := by
    have h0 := take_extend3 ch (3 * (n - 1)) 0 x y z hx0 hy0 hz0
    simpa [tripleAt] using h0
  have hr : readRange ch (3 * usub (ch.length / 3) L)
      (3 * usub (ch.length / 3) 1) =
      some ((ch.drop (3 * (n - L))).take (3 * (L - 1))) := by
    rw [hn3, hu_nL, hu_n1, readRange_eq ch _ _ (by omega),
      (by omega : 3 * (n - 1) - 3 * (n - L) = 3 * (L - 1))]
  have hbody := padBody_of_loop (w := s + 1) hh
    (by rw [hu_w1, hn3, hu_ns]; exact hK) (show 0 < L by omega) hr hx hy hz
  rw [sanitize_map] at hbody
  simp only [SanitizeFloat] at hbody
  have hslice : (ch.drop (3 * (n - L))).take (3 * (L - 1)) ++ [x, y, z] =
      (ch.drop (3 * (n - L))).take (3 * L) := by
    have h0 := take_extend3 ch (3 * (n - L)) (3 * (L - 1)) x y z
      (by rw [(by omega : 3 * (n - L) + 3 * (L - 1) = 3 * (n - 1))]; exact hx0)
      (by rw [(by omega : 3 * (n - L) + 3 * (L - 1) + 1 = 3 * (n - 1) + 1)]
          exact hy0)
      (by rw [(by omega : 3 * (n - L) + 3 * (L - 1) + 2 = 3 * (n - 1) + 2)]
          exact hz0)
    rw [(by omega : 3 * (L - 1) + 3 = 3 * L)] at h0
    exact h0
  rw [List.append_assoc, hslice] at hbody
  have hrow_len : ∀ j, j < K →
      ((ch.drop (3 * (j * s))).take (3 * s + 3)).length = 3 * s + 3 := by
    intro j hj
    apply slice_length
    have h4 : (j + 1) * s ≤ K * s := Nat.mul_le_mul_right s (by omega)
    have h5 : (j + 1) * s = j * s + s := by ring
    omega
  have hchunk_len : (((List.range K).map
      (fun j => (ch.drop (3 * (j * s))).take (3 * s + 3))).flatten).length =
      K * (3 * s + 3) := by
    rw [List.length_flatten, List.map_map]
    have hc : ∀ j ∈ List.range K, (List.length ∘
        fun j => (ch.drop (3 * (j * s))).take (3 * s + 3)) j = 3 * s + 3 := by
      intro j hj
      simp only [Function.comp_apply]
      exact hrow_len j (List.mem_range.mp hj)
    rw [List.map_congr_left hc, List.map_const', List.length_range,
      List.sum_replicate, smul_eq_mul]
  have hblen : (((List.range K).map
      (fun j => (ch.drop (3 * (j * s))).take (3 * s + 3))).flatten ++
      (ch.drop (3 * (n - L))).take (3 * L)).length = 3 * (K * (s + 1) + L) := by
    rw [List.length_append, hchunk_len,
      slice_length ch (3 * (n - L)) (3 * L) (by omega)]
    have : K * (3 * s + 3) = 3 * (K * (s + 1)) := by ring
    omega
  have hbt3 : (((List.range K).map
      (fun j => (ch.drop (3 * (j * s))).take (3 * s + 3))).flatten ++
      (ch.drop (3 * (n - L))).take (3 * L)).length / 3 = K * (s + 1) + L := by
    omega
  have hbtn : K * (s + 1) + L = n + K := by
    have : K * (s + 1) = K * s + K := by ring
    omega
  by_cases hcase : n + K ≤ (s + 1) * h
  · have hmiss : usub ((s + 1) * h) ((((List.range K).map
        (fun j => (ch.drop (3 * (j * s))).take (3 * s + 3))).flatten ++
        (ch.drop (3 * (n - L))).take (3 * L)).length / 3) =
        (s + 1) * h - (n + K) := by
      rw [hbt3, hbtn]
      exact usub_of_le hcase
    have hout : PadLutChannels (s + 1) h ch = some
        ((((List.range K).map
          (fun j => (ch.drop (3 * (j * s))).take (3 * s + 3))).flatten ++
          (ch.drop (3 * (n - L))).take (3 * L)) ++
          (List.replicate ((s + 1) * h - (n + K))
            (tripleAt ch (n - 1))).flatten) := by
      by_cases hM0 : (s + 1) * h - (n + K) = 0
      · rw [PadLutChannels_of_body hbody,
          padTail_of_zero (hmiss.trans hM0), hM0]
        simp
      · rw [PadLutChannels_of_body hbody,
          padTail_of_pos (by rw [hmiss]; exact hM0) hx hy hz, hmiss]
        simp only [SanitizeFloat]
        rw [htrip]
    have hassem := spec_assemble ch n s K L ((s + 1) * h - (n + K)) hs1 hch
      hL1 hL2 (by omega)
    rw [(by omega : K * (s + 1) + L + ((s + 1) * h - (n + K)) = (s + 1) * h)]
      at hassem
    rw [hout, if_pos (by rw [hKdiv]; exact hcase)]
    exact congrArg some hassem.symm
  · have hlt : (s + 1) * h < n + K := by omega
    have hbound : n + K ≤ (s + 1) * h + 2 ^ 64 := by omega
    have hmiss : usub ((s + 1) * h) ((((List.range K).map
        (fun j => (ch.drop (3 * (j * s))).take (3 * s + 3))).flatten ++
        (ch.drop (3 * (n - L))).take (3 * L)).length / 3) =
        (s + 1) * h + 2 ^ 64 - (n + K) := by
      rw [hbt3, hbtn]
      exact usub_of_gt hlt
    have hM0 : (s + 1) * h + 2 ^ 64 - (n + K) ≠ 0 := by omega
    have hout : PadLutChannels (s + 1) h ch = some
        ((((List.range K).map
          (fun j => (ch.drop (3 * (j * s))).take (3 * s + 3))).flatten ++
          (ch.drop (3 * (n - L))).take (3 * L)) ++
          (List.replicate ((s + 1) * h + 2 ^ 64 - (n + K))
            (tripleAt ch (n - 1))).flatten) := by
      rw [PadLutChannels_of_body hbody,
        padTail_of_pos (by rw [hmiss]; exact hM0) hx hy hz, hmiss]
      simp only [SanitizeFloat]
      rw [htrip]
    have hassem := spec_assemble ch n s K L ((s + 1) * h + 2 ^ 64 - (n + K))
      hs1 hch hL1 hL2 (by omega)
    rw [(by omega : K * (s + 1) + L + ((s + 1) * h + 2 ^ 64 - (n + K)) =
      (s + 1) * h + 2 ^ 64)] at hassem
    rw [hout, if_neg (by rw [hKdiv]; omega), hassem]



theorem spec_out_tripleAt (w : Nat) (n : Nat) (ch : List ℚ) (hn1 : 1 ≤ n)
    (hch : ch.length = 3 * n) (p T : Nat) (hp : p < T) :
    tripleAt (((List.range T).map
      (fun q => tripleAt ch (min (q / w * (w - 1) + q % w) (n - 1)))).flatten) p =
    tripleAt ch (min (p / w * (w - 1) + p % w) (n - 1)) := by
  have hlen3 : ∀ t ∈ (List.range T).map
      (fun q => tripleAt ch (min (q / w * (w - 1) + q % w) (n - 1))),
      t.length = 3 := by
    intro t ht
    obtain ⟨q, _, rfl⟩ := List.mem_map.mp ht
    apply tripleAt_len
    have := Nat.min_le_right (q / w * (w - 1) + q % w) (n - 1)
    omega
  have hp' : p < ((List.range T).map
      (fun q => tripleAt ch (min (q / w * (w - 1) + q % w) (n - 1)))).length := by
    simpa using hp
  rw [tripleAt_flatten _ p hlen3 hp']
  simp

theorem flatten_triples_length (ch : List ℚ) (g : Nat → Nat) (T n : Nat)
    (hch : ch.length = 3 * n) (hn1 : 1 ≤ n) (hg : ∀ p, p < T → g p ≤ n - 1) :
    (((List.range T).map (fun p => tripleAt ch (g p))).flatten).length =
      3 * T := by
  rw [List.length_flatten, List.map_map]
  have hc : ∀ p ∈ List.range T,
      (List.length ∘ fun p => tripleAt ch (g p)) p = 3 := by
    intro p hp
    simp only [Function.comp_apply]
    exact tripleAt_len ch (g p) (by have := hg p (List.mem_range.mp hp); omega)
  rw [List.map_congr_left hc, List.map_const', List.length_range,
    List.sum_replicate, smul_eq_mul]
  ring

/-- C1 amended: under the stated preconditions plus the ones the unsigned
arithmetic actually needs — a nonempty input holding at least `width - 1`
triples when `height > 1`, whose row phase (`currWidth` plus one duplicated
texel per full row) does not exceed `width * height` texels — the packed
output holds exactly `3 * width * height` floats. -/
theorem pad_length_amended (w h n : Nat) (ch : List ℚ) (hch : ch.length = 3 * n)
    (hlen : ch.length < 2 ^ 64) (hn1 : 1 ≤ n)
    (hgeom : if 1 < h then 2 ≤ w ∧ w - 1 ≤ n ∧ n + (n - 1) / (w - 1) ≤ w * h
      else n ≤ w * h) :
    ∃ out, PadLutChannels w h ch = some out ∧ out.length = 3 * (w * h) := by
  by_cases hh : 1 < h
  · rw [if_pos hh] at hgeom
    obtain ⟨hw, hn, hbt⟩ := hgeom
    refine ⟨_, PadLutChannels_spec w h n ch hw hh hch hn hlen, ?_⟩
    rw [if_pos hbt, Nat.add_zero]
    exact flatten_triples_length ch _ (w * h) n hch hn1
      (fun p _ => Nat.min_le_right _ _)
  · rw [if_neg hh] at hgeom
    have hbody : padBody w h ch = some ch := by
      simp only [padBody]
      rw [if_neg hh, sanitize_map]
    have hn3 : ch.length / 3 = n := by omega
    by_cases heq : usub (w * h) (ch.length / 3) = 0
    · refine ⟨ch, ?_, ?_⟩
      · rw [PadLutChannels_of_body hbody, padTail_of_zero heq]
      · rw [usub_of_le (by omega)] at heq
        omega
    · have hwn : n < w * h := by
        by_contra hcon
        apply heq
        rw [hn3, usub_of_le (by omega)]
        omega
      obtain ⟨x, hx⟩ : ∃ v, ch[3 * usub (ch.length / 3) 1]? = some v := by
        rw [hn3, usub_of_le hn1]
        exact ⟨_, List.getElem?_eq_getElem (by omega)⟩
      obtain ⟨y, hy⟩ : ∃ v, ch[3 * usub (ch.length / 3) 1 + 1]? = some v := by
        rw [hn3, usub_of_le hn1]
        exact ⟨_, List.getElem?_eq_getElem (by omega)⟩
      obtain ⟨z, hz⟩ : ∃ v, ch[3 * usub (ch.length / 3) 1 + 2]? = some v := by
        rw [hn3, usub_of_le hn1]
        exact ⟨_, List.getElem?_eq_getElem (by omega)⟩
      refine ⟨_, by rw [PadLutChannels_of_body hbody,
        padTail_of_pos heq hx hy hz], ?_⟩
      have hm : usub (w * h) (ch.length / 3) = w * h - n := by
        rw [hn3]
        exact usub_of_le (by omega)
      rw [List.length_append, hm]
      have hrep : ((List.replicate (w * h - n)
          [SanitizeFloat x, SanitizeFloat y, SanitizeFloat z]).flatten).length =
          3 * (w * h - n) := by
        simp [List.length_flatten, List.map_replicate, List.sum_replicate]
        ring
      rw [hrep]
      omega

/-- Witness for `pad_length_amended` at width 2, height 1, one input
triple. -/
theorem pad_length_amended_witness :
    ([(0 : ℚ), 0, 0].length = 3 * 1) ∧ ([(0 : ℚ), 0, 0].length < 2 ^ 64) ∧
    1 ≤ 1 ∧
    (if 1 < 1 then 2 ≤ 2 ∧ 2 - 1 ≤ 1 ∧ 1 + (1 - 1) / (2 - 1) ≤ 2 * 1
      else 1 ≤ 2 * 1) ∧
    ∃ out, PadLutChannels 2 1 [(0 : ℚ), 0, 0] = some out ∧
      out.length = 3 * (2 * 1) :=
  ⟨rfl, by decide, by decide, by decide,
    pad_length_amended 2 1 1 [0, 0, 0] rfl (by decide) (by decide) (by decide)⟩

/-- C3: for a multi-row packing of a valid input, texel `width - 1` of
packed row `r` holds the same RGB triple as texel `0` of packed row
`r + 1`, for every `r` up to `height - 2`. -/
theorem pad_row_continuity (w h n : Nat) (ch : List ℚ) (hw : 2 ≤ w)
    (hh : 1 < h) (hch : ch.length = 3 * n) (hn : w - 1 ≤ n)
    (hlen : ch.length < 2 ^ 64) :
    ∃ out, PadLutChannels w h ch = some out ∧
      ∀ r, r + 2 ≤ h → tripleAt out (r * w + (w - 1)) =
        tripleAt out ((r + 1) * w) := by
  refine ⟨_, PadLutChannels_spec w h n ch hw hh hch hn hlen, ?_⟩
  intro r hr
  have hn1 : 1 ≤ n := by omega
  have hwh : (r + 1) * w + (w - 1) < w * h := by
    have h1 : (r + 2) * w ≤ h * w := Nat.mul_le_mul_right w hr
    have h2 : (r + 2) * w = (r + 1) * w + w := by ring
    have h3 : h * w = w * h := by ring
    omega
  have hT : w * h ≤ w * h +
      (if n + (n - 1) / (w - 1) ≤ w * h then 0 else 2 ^ 64) :=
    Nat.le_add_right _ _
  have hp1 : r * w + (w - 1) < w * h +
      (if n + (n - 1) / (w - 1) ≤ w * h then 0 else 2 ^ 64) := by
    have : r * w ≤ (r + 1) * w := Nat.mul_le_mul_right w (by omega)
    omega
  have hp2 : (r + 1) * w < w * h +
      (if n + (n - 1) / (w - 1) ≤ w * h then 0 else 2 ^ 64) := by omega
  rw [spec_out_tripleAt w n ch hn1 hch _ _ hp1,
    spec_out_tripleAt w n ch hn1 hch _ _ hp2]
  have hd1 := div_mul_add w r (w - 1) (by omega) (by omega)
  have hd2 := div_mul_add w (r + 1) 0 (by omega) (by omega)
  simp only [Nat.add_zero] at hd2
  rw [hd1.1, hd1.2, hd2.1, hd2.2]
  congr 2
  have : (r + 1) * (w - 1) = r * (w - 1) + (w - 1) := by ring
  omega

/-- Witness for `pad_row_continuity` at width 4, height 3, nine input
triples. -/
theorem pad_row_continuity_witness :
    ∃ out, PadLutChannels 4 3 scenario3Input = some out ∧
      ∀ r, r + 2 ≤ 3 → tripleAt out (r * 4 + (4 - 1)) =
        tripleAt out ((r + 1) * 4) :=
  pad_row_continuity 4 3 9 scenario3Input (by decide) (by decide) rfl
    (by decide) (by decide)

/-- C8: in a multi-row packing of a valid input, the output triple at flat
position `(d / (width-1)) * width + d % (width-1)` is the sanitized input
triple `d`, for every input triple index `d`: the packed row-major layout
agrees with the row/column decomposition used by the addressing code. -/
theorem pad_layout (w h n : Nat) (ch : List ℚ) (hw : 2 ≤ w) (hh : 1 < h)
    (hch : ch.length = 3 * n) (hn : w - 1 ≤ n) (hlen : ch.length < 2 ^ 64) :
    ∃ out, PadLutChannels w h ch = some out ∧
      ∀ d, d < n → tripleAt out (d / (w - 1) * w + d % (w - 1)) =
        (tripleAt ch d).map SanitizeFloat := by
  obtain ⟨s, rfl⟩ : ∃ s, w = s + 1 := ⟨w - 1, by omega⟩
  refine ⟨_, PadLutChannels_spec (s + 1) h n ch hw hh hch hn hlen, ?_⟩
  intro d hd
  have hn1 : 1 ≤ n := by omega
  have hs1 : 1 ≤ s := by omega
  simp only [Nat.add_sub_cancel]
  have hdm := Nat.div_add_mod d s
  have hmod : d % s < s := Nat.mod_lt _ (by omega)
  have hq_eq : d / s * (s + 1) + d % s = d + d / s := by
    have h1 : d / s * (s + 1) = d / s * s + d / s := by ring
    have h2 : s * (d / s) = d / s * s := by ring
    omega
  have hdiv_le : d / s ≤ (n - 1) / s := Nat.div_le_div_right (by omega)
  have hdiv_n : (n - 1) / s ≤ n - 1 := Nat.div_le_self _ _
  have hq_lt : d / s * (s + 1) + d % s < (s + 1) * h +
      (if n + (n - 1) / s ≤ (s + 1) * h then 0 else 2 ^ 64) := by
    by_cases hc : n + (n - 1) / s ≤ (s + 1) * h
    · rw [if_pos hc]
      omega
    · rw [if_neg hc]
      omega
  have hst := spec_out_tripleAt (s + 1) n ch hn1 hch
    (d / s * (s + 1) + d % s) _ hq_lt
  simp only [Nat.add_sub_cancel] at hst
  rw [hst]
  have hd1 := div_mul_add (s + 1) (d / s) (d % s) (by omega) (by omega)
  rw [hd1.1, hd1.2, sanitize_map]
  congr 1
  have h2 : s * (d / s) = d / s * s := by ring
  have h3 : d / s * s + d % s = d := by omega
  rw [h3]
  exact min_eq_left (by omega)

/-- Witness for `pad_layout` at width 4, height 3, nine input triples. -/
theorem pad_layout_witness :
    ∃ out, PadLutChannels 4 3 scenario3Input = some out ∧
      ∀ d, d < 9 → tripleAt out (d / (4 - 1) * 4 + d % (4 - 1)) =
        (tripleAt scenario3Input d).map SanitizeFloat :=
  pad_layout 4 3 9 scenario3Input (by decide) (by decide) rfl (by decide)
    (by decide)

/-- C9: when `height > 1` and `width ≥ 2`, `PadLutChannels` performs only
in-bounds reads — and hence returns an output — precisely when the input
holds at least `width - 1` triples (the unsigned loop bound
`currWidth - step` wraps around otherwise, driving the stepped loop past
the end of the input; an empty input likewise reads out of range). -/
theorem pad_inbounds_iff (w h n : Nat) (ch : List ℚ) (hw : 2 ≤ w)
    (hh : 1 < h) (hch : ch.length = 3 * n) (hw64 : w < 2 ^ 64)
    (hlen : ch.length < 2 ^ 64) :
    (∃ out, PadLutChannels w h ch = some out) ↔ w - 1 ≤ n := by
  constructor
  · rintro ⟨out, hout⟩
    by_contra hlt
    push_neg at hlt
    have hn3 : ch.length / 3 = n := by omega
    have hu_w1 : usub w 1 = w - 1 := usub_of_le (by omega)
    have hbound : usub n (w - 1) = n + 2 ^ 64 - (w - 1) := usub_of_gt hlt
    obtain ⟨f, hf⟩ : ∃ f, n + 2 ^ 64 - (w - 1) = f + 1 :=
      ⟨n + 2 ^ 64 - (w - 1) - 1, by omega⟩
    have hloopn : padStepLoop ch (w - 1) (f + 1) (f + 1) 0 [] n = none := by
      simp only [padStepLoop]
      rw [if_pos (show 0 < f + 1 by omega),
        if_neg (show ¬ w - 1 = 0 by omega),
        show readRange ch (3 * 0) (3 * (0 + (w - 1))) = none from by
          unfold readRange
          rw [if_neg (by omega)]]
    have hbodyn : padBody w h ch = none := by
      apply padBody_of_loop_none hh
      rw [hu_w1, hn3, hbound, hf]
      exact hloopn
    rw [PadLutChannels_of_body_none hbodyn] at hout
    exact Option.noConfusion hout
  · intro hn
    exact ⟨_, PadLutChannels_spec w h n ch hw hh hch hn hlen⟩

/-- Witness for `pad_inbounds_iff` at width 4, height 3, nine input
triples. -/
theorem pad_inbounds_iff_witness :
    (∃ out, PadLutChannels 4 3 scenario3Input = some out) ↔ 4 - 1 ≤ 9 :=
  pad_inbounds_iff 4 3 9 scenario3Input (by decide) (by decide) rfl
    (by decide) (by decide)


end OCIO

namespace OCIO

theorem csReplace_keys_mem (s : CsList) (cs : ColorSpace)
    (h : csKey cs ∈ s.map csKey) :
    (csReplace s cs).map csKey = s.map csKey := by
  induction s with
  | nil => simp at h
  | cons e rest ih =>
    by_cases he : csKey e = csKey cs
    · simp only [csReplace, if_pos he, List.map_cons]
      rw [he]
    · simp only [csReplace, if_neg he, List.map_cons]
      congr 1
      apply ih
      simp only [List.map_cons, List.mem_cons] at h
      rcases h with h | h
      · exact absurd h.symm he
      · exact h

theorem csReplace_keys_not_mem (s : CsList) (cs : ColorSpace)
    (h : csKey cs ∉ s.map csKey) :
    (csReplace s cs).map csKey = s.map csKey ++ [csKey cs] := by
  induction s with
  | nil => simp [csReplace]
  | cons e rest ih =>
    simp only [List.map_cons, List.mem_cons] at h
    push_neg at h
    by_cases he : csKey e = csKey cs
    · exact absurd he.symm h.1
    · simp only [csReplace, if_neg he, List.map_cons, ih h.2, List.cons_append]

theorem csAdd_distinct (s : CsList) (cs : ColorSpace) (s' : CsList)
    (hd : CsDistinct s) (hadd : csAdd s cs = some s') : CsDistinct s' := by
  unfold csAdd at hadd
  split at hadd
  · exact Option.noConfusion hadd
  · injection hadd with h
    subst h
    unfold CsDistinct at *
    by_cases hm : csKey cs ∈ s.map csKey
    · rw [csReplace_keys_mem s cs hm]
      exact hd
    · rw [csReplace_keys_not_mem s cs hm]
      simp [List.nodup_append, hd, hm]

theorem foldlM_distinct (step : CsList → ColorSpace → Option CsList)
    (hstep : ∀ s cs s', CsDistinct s → step s cs = some s' → CsDistinct s') :
    ∀ (l : List ColorSpace) (s s' : CsList), CsDistinct s →
      l.foldlM step s = some s' → CsDistinct s' := by
  intro l
  induction l with
  | nil =>
    intro s s' hd h
    simp only [List.foldlM_nil] at h
    injection h with h
    rwa [← h]
  | cons cs rest ih =>
    intro s s' hd h
    rw [List.foldlM_cons] at h
    rcases Option.bind_eq_some.mp h with ⟨s1, h1, h2⟩
    exact ih s1 s' (hstep s cs s1 hd h1) h2

theorem csAddAll_distinct (s rhs : CsList) (s' : CsList) (hd : CsDistinct s)
    (h : csAddAll s rhs = some s') : CsDistinct s' :=
  foldlM_distinct csAdd csAdd_distinct rhs s s' hd h

theorem csRemoveFirst_sublist (s : CsList) (k : String) :
    List.Sublist (csRemoveFirst s k) s := by
  induction s with
  | nil => simp [csRemoveFirst]
  | cons e rest ih =>
    by_cases he : csKey e = k
    · simp only [csRemoveFirst, if_pos he]
      exact List.sublist_cons_self e rest
    · simp only [csRemoveFirst, if_neg he]
      exact List.Sublist.cons₂ e ih

theorem csRemove_distinct (s : CsList) (nm : String) (hd : CsDistinct s) :
    CsDistinct (csRemove s nm) := by
  unfold csRemove
  split
  · exact hd
  · exact List.Sublist.nodup
      ((csRemoveFirst_sublist s (lowerStr nm)).map csKey) hd

theorem csRemoveAll_distinct (s rhs : CsList) (hd : CsDistinct s) :
    CsDistinct (csRemoveAll s rhs) := by
  unfold csRemoveAll
  induction rhs generalizing s with
  | nil => exact hd
  | cons cs rest ih =>
    rw [List.foldl_cons]
    exact ih (csRemove s cs.name) (csRemove_distinct s cs.name hd)

theorem csInter_distinct (l r u : CsList) (h : csInter l r = some u) :
    CsDistinct u := by
  apply foldlM_distinct _ _ r [] u (by simp [CsDistinct]) h
  intro s cs s' hd hstep
  split at hstep
  · exact csAdd_distinct s cs s' hd hstep
  · injection hstep with h2
    rwa [← h2]

theorem csDiff_distinct (l r u : CsList) (h : csDiff l r = some u) :
    CsDistinct u := by
  apply foldlM_distinct _ _ l [] u (by simp [CsDistinct]) h
  intro s cs s' hd hstep
  split at hstep
  · exact csAdd_distinct s cs s' hd hstep
  · injection hstep with h2
    rwa [← h2]

theorem csReplace_in_place (s : CsList) : ∀ (cs : ColorSpace) (i : Nat)
    (e : ColorSpace), CsDistinct s → s[i]? = some e → csKey e = csKey cs →
    (csReplace s cs).length = s.length ∧ (csReplace s cs)[i]? = some cs ∧
      ∀ j, j ≠ i → (csReplace s cs)[j]? = s[j]? := by
  induction s with
  | nil => intro cs i e _ hi _; simp at hi
  | cons e0 rest ih =>
    intro cs i e hd hi hkey
    by_cases he : csKey e0 = csKey cs
    · have hi0 : i = 0 := by
        by_contra h0
        obtain ⟨j, rfl⟩ : ∃ j, i = j + 1 := ⟨i - 1, by omega⟩
        have hj : rest[j]? = some e := by simpa using hi
        have hmem : e ∈ rest := List.getElem?_mem hj
        have hmemk : csKey e ∈ rest.map csKey := List.mem_map_of_mem csKey hmem
        unfold CsDistinct at hd
        simp only [List.map_cons, List.nodup_cons] at hd
        rw [hkey, ← he] at hmemk
        exact hd.1 hmemk
      subst hi0
      simp only [csReplace, if_pos he]
      refine ⟨by simp, by simp, ?_⟩
      intro j hj
      obtain ⟨j', rfl⟩ : ∃ j', j = j' + 1 := ⟨j - 1, by omega⟩
      simp
    · have hi_ne : i ≠ 0 := by
        intro h0
        subst h0
        have he0 : e0 = e := by
          have : e0 = e := by
            have h5 := hi
            simp at h5
            exact h5
          simp at this
          exact this
        rw [← he0] at hkey
        exact he hkey
      obtain ⟨i', rfl⟩ : ∃ i', i = i' + 1 := ⟨i - 1, by omega⟩
      have hd' : CsDistinct rest := by
        unfold CsDistinct at *
        simp only [List.map_cons, List.nodup_cons] at hd
        exact hd.2
      have hi' : rest[i']? = some e := by simpa using hi
      obtain ⟨h1, h2, h3⟩ := ih cs i' e hd' hi' hkey
      simp only [csReplace, if_neg he]
      refine ⟨by simp [h1], by simpa using h2, ?_⟩
      intro j hj
      cases j with
      | zero => simp
      | succ j' =>
        have h4 := h3 j' (by omega)
        simpa using h4

theorem csAdd_replace_in_place (s : CsList) (cs : ColorSpace) (i : Nat)
    (e : ColorSpace) (s' : CsList) (hd : CsDistinct s) (hi : s[i]? = some e)
    (hkey : csKey e = csKey cs) (hadd : csAdd s cs = some s') :
    s'.length = s.length ∧ s'[i]? = some cs ∧ ∀ j, j ≠ i → s'[j]? = s[j]? := by
  unfold csAdd at hadd
  split at hadd
  · exact Option.noConfusion hadd
  · injection hadd with h
    subst h
    exact csReplace_in_place s cs i e hd hi hkey

end OCIO

namespace OCIO

/-- **C10.** Every `ColorSpaceSet` operation — `addColorSpace` (`csAdd`),
`addColorSpaces` (`csAddAll`), `removeColorSpace` (`csRemove`),
`clearColorSpaces` (`csClear`), and the `||` (`csUnion`), `&&` (`csInter`)
and `-` (`csDiff`) operators — preserves the invariant that member names
are pairwise distinct under case-insensitive comparison; and `addColorSpace`
with a name matching an existing member case-insensitively replaces that
member in place, keeping its position and the set's size. -/
theorem colorSpaceSet_invariant (s : CsList) (hd : CsDistinct s) :
    (∀ cs s', csAdd s cs = some s' → CsDistinct s') ∧
    (∀ rhs s', csAddAll s rhs = some s' → CsDistinct s') ∧
    (∀ nm, CsDistinct (csRemove s nm)) ∧
    CsDistinct (csClear s) ∧
    (∀ rhs s', csUnion s rhs = some s' → CsDistinct s') ∧
    (∀ r u, csInter s r = some u → CsDistinct u) ∧
    (∀ r u, csDiff s r = some u → CsDistinct u) ∧
    (∀ cs (i : Nat) e s', s[i]? = some e → csKey e = csKey cs →
      csAdd s cs = some s' →
      s'.length = s.length ∧ s'[i]? = some cs ∧
        ∀ (j : Nat), j ≠ i → s'[j]? = s[j]?) := by
  refine ⟨fun cs s' h => csAdd_distinct s cs s' hd h,
    fun rhs s' h => csAddAll_distinct s rhs s' hd h,
    fun nm => csRemove_distinct s nm hd,
    by simp [csClear, CsDistinct],
    fun rhs s' h => csAddAll_distinct s rhs s' hd h,
    fun r u h => csInter_distinct s r u h,
    fun r u h => csDiff_distinct s r u h,
    fun cs i e s' hi hkey hadd =>
      csAdd_replace_in_place s cs i e s' hd hi hkey hadd⟩

theorem colorSpaceSet_invariant_witness :
    CsDistinct ([⟨"Raw", 0⟩, ⟨"lnf", 1⟩] : CsList) ∧
    CsDistinct ([⟨"raw", 2⟩, ⟨"lnf", 1⟩] : CsList) ∧
    (([⟨"raw", 2⟩, ⟨"lnf", 1⟩] : CsList).length = 2 ∧
      ([⟨"raw", 2⟩, ⟨"lnf", 1⟩] : CsList)[0]? = some ⟨"raw", 2⟩ ∧
      ∀ j, j ≠ 0 →
        ([⟨"raw", 2⟩, ⟨"lnf", 1⟩] : CsList)[j]? =
          ([⟨"Raw", 0⟩, ⟨"lnf", 1⟩] : CsList)[j]?) := by
  have h := colorSpaceSet_invariant [⟨"Raw", 0⟩, ⟨"lnf", 1⟩] (by decide)
  refine ⟨by decide, ?_, ?_⟩
  · exact h.1 ⟨"raw", 2⟩ [⟨"raw", 2⟩, ⟨"lnf", 1⟩] (by decide)
  · exact h.2.2.2.2.2.2.2 ⟨"raw", 2⟩ 0 ⟨"Raw", 0⟩
      [⟨"raw", 2⟩, ⟨"lnf", 1⟩] (by decide) (by decide) (by decide)

end OCIO
